import Mathlib

/-!
Verification development for the sidecar orchestration core of the `trove`
repository (`src-tauri/src/commands/agent.rs`).  The protocol parser, line
framer, stream pipeline, single-flight guard, cancellation loop and sidecar
path resolution are embedded as executable Lean functions, and the stated
properties of the specification are proved or refuted against them.
-/

set_option maxHeartbeats 1000000

namespace Trove

/-- Strings are modelled as lists of characters. -/
abbrev Str := List Char

/-- Embeds `MAX_HTML_BYTES: usize = 10 * 1024 * 1024` from `agent.rs`. -/
def MAX_HTML_BYTES : Nat := 10 * 1024 * 1024

/-- Embeds Rust `String::len` / `str::len`: the UTF-8 byte length of the
text, each character contributing its encoded width (`Char.utf8Size`:
1, 2, 3 or 4 bytes), not the number of code points. -/
def utf8Length : Str → Nat
  | [] => 0
  | c :: rest => c.utf8Size + utf8Length rest

/-- Rust `str::trim` from the start: drop leading whitespace. -/
def trimStart (s : Str) : Str := s.dropWhile Char.isWhitespace

/-- Rust `str::trim` from the end: drop trailing whitespace. -/
def trimEnd (s : Str) : Str := (s.reverse.dropWhile Char.isWhitespace).reverse

/-- Rust `str::trim`: drop whitespace from both ends. -/
def trim (s : Str) : Str := trimEnd (trimStart s)

/-- Session parse state threaded through `process_sidecar_output_line` in
`run_sidecar`: the HTML accumulator, the `collecting_html` flag, and the
first captured `ERROR:` message. -/
structure ParseState where
  html_content : Str
  collecting_html : Bool
  error_occurred : Option Str
deriving Repr, DecidableEq

/-- Initial state of a generation session (`run_sidecar`, lines 185-188). -/
def initState : ParseState := ⟨[], false, none⟩

/-- Error message of the size check in `process_sidecar_output_line`. -/
def sizeLimitError : Str := "Generated HTML exceeded size limit".toList

/-- Embeds `process_sidecar_output_line` (agent.rs lines 74-112).  The Rust
function mutates the state through `&mut` references and returns
`Result<(), String>`; here it returns the state as it stands when the
function returns, together with the optional error.  The size check
compares UTF-8 byte lengths (`String::len`), embedded as `utf8Length`. -/
def process_sidecar_output_line (raw_line : Str) (st : ParseState) :
    ParseState × Option Str :=
  let line := trim raw_line
  if ("PROGRESS:".toList).isPrefixOf line then (st, none)
  else if line = "HTML_START".toList then ({ st with collecting_html := true }, none)
  else if line = "HTML_END".toList then ({ st with collecting_html := false }, none)
  else if ("ERROR:".toList).isPrefixOf line then
    let msg := line.drop ("ERROR:".toList).length
    if st.error_occurred.isNone then ({ st with error_occurred := some msg }, none)
    else (st, none)
  else if st.collecting_html then
    let extra : Nat := if st.html_content.isEmpty then 0 else 1
    if utf8Length st.html_content + utf8Length raw_line + extra > MAX_HTML_BYTES then
      (st, some sizeLimitError)
    else
      ({ st with html_content :=
          st.html_content ++ (if st.html_content.isEmpty then [] else ['\n']) ++ raw_line },
        none)
  else (st, none)

/-- Rust `if line.ends_with('\r') then line.pop()`: strip one trailing CR. -/
def stripCR (l : Str) : Str := if l.getLast? = some '\r' then l.dropLast else l

/-- Worker for the `while let Some(newline_idx) = stdout_buffer.find('\n')`
loop of `process_sidecar_stdout_chunk` (agent.rs lines 124-132): `line` is
the part of the buffer already scanned without finding a newline (the text
before the next newline), and the remaining characters are scanned one by
one.  When a newline is found, the line (with one trailing CR stripped) is
fed to the parser and the buffer is drained through the newline; on a
parser error the `?` operator returns before the `drain`, so the buffer
still holds the offending line and everything after it. -/
def drainGo (st : ParseState) (line : Str) : Str → Str × ParseState × Option Str
  | [] => (line, st, none)
  | c :: rest =>
    if c = '\n' then
      match process_sidecar_output_line (stripCR line) st with
      | (st', some e) => (line ++ '\n' :: rest, st', some e)
      | (st', none) => drainGo st' [] rest
    else drainGo st (line ++ [c]) rest

/-- Embeds the line-draining loop of `process_sidecar_stdout_chunk` on a
whole buffer: extract every complete `\r?\n`-terminated line in order,
feed each to `process_sidecar_output_line`, and return the undrained rest
of the buffer together with the final parse state and optional error. -/
def drainLines (buffer : Str) (st : ParseState) : Str × ParseState × Option Str :=
  drainGo st [] buffer

/-- Embeds `process_sidecar_stdout_chunk` (agent.rs lines 114-135) at the
character level: append the chunk to the pending buffer and drain complete
lines.  (`String::from_utf8_lossy` is modelled separately at the byte
level, see `from_utf8_lossy`.) -/
def process_sidecar_stdout_chunk (chunk : Str) (stdout_buffer : Str) (st : ParseState) :
    Str × ParseState × Option Str :=
  drainLines (stdout_buffer ++ chunk) st

/-- Rust `trim_end_matches('\r')`: drop every trailing CR. -/
def trimEndMatchesCR (s : Str) : Str := (s.reverse.dropWhile (fun c => c = '\r')).reverse

/-- Embeds the end-of-stream flush in `run_sidecar` (agent.rs lines
240-251): if the buffer is non-empty, strip all trailing CRs and feed the
residue to the parser as one final line. -/
def flushTrailing (stdout_buffer : Str) (st : ParseState) : ParseState × Option Str :=
  if stdout_buffer.isEmpty then (st, none)
  else process_sidecar_output_line (trimEndMatchesCR stdout_buffer) st

/-- Feeds a list of stdout chunks through `process_sidecar_stdout_chunk`,
stopping at the first parser error as `run_sidecar` does (lines 205-216). -/
def runChunks : List Str → Str → ParseState → Str × ParseState × Option Str
  | [], buf, st => (buf, st, none)
  | c :: cs, buf, st =>
    match process_sidecar_stdout_chunk c buf st with
    | (buf', st', some e) => (buf', st', some e)
    | (buf', st', none) => runChunks cs buf' st'

/-- Entire stream pipeline of one session: feed every chunk, then perform
the end-of-stream flush (skipped when an earlier chunk already failed). -/
def runStream (chunks : List Str) (st : ParseState) : ParseState × Option Str :=
  match runChunks chunks [] st with
  | (_, st', some e) => (st', some e)
  | (buf, st', none) => flushTrailing buf st'

/-! Line framer viewed in isolation: the same scan as `drainGo`, but
recording the emitted lines instead of feeding them to the parser.  The
specification treats this framing as its own component. -/

/-- Worker of the framer: `line` is the scanned part of the current line. -/
def frameGo (line : Str) : Str → List Str × Str
  | [] => ([], line)
  | c :: rest =>
    if c = '\n' then
      let p := frameGo [] rest
      (stripCR line :: p.1, p.2)
    else frameGo (line ++ [c]) rest

/-- All complete lines a buffer yields (with one trailing CR stripped from
each, exactly as the loop in `process_sidecar_stdout_chunk` emits them),
together with the retained partial trailing line. -/
def frameLines (buffer : Str) : List Str × Str := frameGo [] buffer

/-- Feeds a sequence of chunks through the framer, accumulating emitted
lines and threading the pending partial-line buffer, as the stdout events
of `run_sidecar` do. -/
def frameFeed : List Str → Str → List Str × Str
  | [], buf => ([], buf)
  | c :: cs, buf =>
    let p := frameLines (buf ++ c)
    let q := frameFeed cs p.2
    (p.1 ++ q.1, q.2)

/-- Joins lines with single newline separators. -/
def joinNL : List Str → Str
  | [] => []
  | [l] => l
  | l :: ls => l ++ '\n' :: joinNL ls

/-- Normalizes every CRLF pair to a bare LF; used to state the framer
round-trip property of the specification. -/
def normalizeCRLF : Str → Str
  | [] => []
  | '\r' :: '\n' :: rest => '\n' :: normalizeCRLF rest
  | c :: rest => c :: normalizeCRLF rest

/-! Byte-level input.  `process_sidecar_stdout_chunk` receives `&[u8]` and
decodes it with `String::from_utf8_lossy`, which replaces each maximal
invalid subpart — including a multi-byte sequence left incomplete at the
end of the chunk — with one U+FFFD replacement character. -/

/-- The U+FFFD replacement character. -/
def repChar : Char := Char.ofNat 0xFFFD

/-- Valid continuation byte (0x80 ..= 0xBF). -/
def isUtf8Cont (b : Nat) : Bool := 0x80 ≤ b ∧ b ≤ 0xBF

/-- Admissible range of the first continuation byte after leading byte
`b1`, per the UTF-8 validation used by `String::from_utf8_lossy` (it
excludes overlong encodings, surrogates and code points above 0x10FFFF). -/
def isUtf8Cont2 (b1 b2 : Nat) : Bool :=
  if b1 = 0xE0 then 0xA0 ≤ b2 ∧ b2 ≤ 0xBF
  else if b1 = 0xED then 0x80 ≤ b2 ∧ b2 ≤ 0x9F
  else if b1 = 0xF0 then 0x90 ≤ b2 ∧ b2 ≤ 0xBF
  else if b1 = 0xF4 then 0x80 ≤ b2 ∧ b2 ≤ 0x8F
  else 0x80 ≤ b2 ∧ b2 ≤ 0xBF

/-- Embeds `String::from_utf8_lossy` on a list of bytes: well-formed UTF-8
sequences decode to their code points; each maximal invalid subpart (an
illegal leading byte, a sequence cut short by a non-continuation byte, or
a sequence left incomplete at the end of the input) becomes one U+FFFD. -/
def utf8LossyGo : Nat → List Nat → List Char
  | 0, _ => []
  | _, [] => []
  | fuel + 1, b :: rest =>
    if b < 0x80 then Char.ofNat b :: utf8LossyGo fuel rest
    else if 0xC2 ≤ b ∧ b ≤ 0xDF then
      match rest with
      | [] => [repChar]
      | b2 :: rest2 =>
        if isUtf8Cont b2 then
          Char.ofNat ((b &&& 0x1F) <<< 6 ||| (b2 &&& 0x3F)) :: utf8LossyGo fuel rest2
        else repChar :: utf8LossyGo fuel rest
    else if 0xE0 ≤ b ∧ b ≤ 0xEF then
      match rest with
      | [] => [repChar]
      | b2 :: rest2 =>
        if isUtf8Cont2 b b2 then
          match rest2 with
          | [] => [repChar]
          | b3 :: rest3 =>
            if isUtf8Cont b3 then
              Char.ofNat ((b &&& 0x0F) <<< 12 ||| (b2 &&& 0x3F) <<< 6 ||| (b3 &&& 0x3F)) ::
                utf8LossyGo fuel rest3
            else repChar :: utf8LossyGo fuel rest2
        else repChar :: utf8LossyGo fuel rest
    else if 0xF0 ≤ b ∧ b ≤ 0xF4 then
      match rest with
      | [] => [repChar]
      | b2 :: rest2 =>
        if isUtf8Cont2 b b2 then
          match rest2 with
          | [] => [repChar]
          | b3 :: rest3 =>
            if isUtf8Cont b3 then
              match rest3 with
              | [] => [repChar]
              | b4 :: rest4 =>
                if isUtf8Cont b4 then
                  Char.ofNat ((b &&& 0x07) <<< 18 ||| (b2 &&& 0x3F) <<< 12 |||
                      (b3 &&& 0x3F) <<< 6 ||| (b4 &&& 0x3F)) :: utf8LossyGo fuel rest4
                else repChar :: utf8LossyGo fuel rest3
            else repChar :: utf8LossyGo fuel rest2
        else repChar :: utf8LossyGo fuel rest
    else repChar :: utf8LossyGo fuel rest

/-- Embeds `String::from_utf8_lossy`, driven by a fuel argument that only
bounds the number of decoding steps; since every step consumes at least
one byte, a fuel equal to the input length is always sufficient. -/
def from_utf8_lossy (l : List Nat) : List Char := utf8LossyGo l.length l

/-- Byte list of an ASCII string literal, for writing concrete streams. -/
def asciiBytes (s : String) : List Nat := s.toList.map Char.toNat

/-- Embeds `process_sidecar_stdout_chunk` (agent.rs lines 114-135) on the
raw bytes it actually receives: decode the chunk lossily, append to the
pending buffer, drain complete lines. -/
def process_sidecar_stdout_chunk_bytes (chunk : List Nat) (stdout_buffer : Str)
    (st : ParseState) : Str × ParseState × Option Str :=
  process_sidecar_stdout_chunk (from_utf8_lossy chunk) stdout_buffer st

/-- Feeds a list of raw byte chunks through the pipeline, stopping at the
first parser error, as the stdout arm of `run_sidecar` does. -/
def runChunksBytes : List (List Nat) → Str → ParseState → Str × ParseState × Option Str
  | [], buf, st => (buf, st, none)
  | c :: cs, buf, st =>
    match process_sidecar_stdout_chunk_bytes c buf st with
    | (buf', st', some e) => (buf', st', some e)
    | (buf', st', none) => runChunksBytes cs buf' st'

/-- Entire byte-level stream pipeline of one session, final flush included. -/
def runStreamBytes (chunks : List (List Nat)) (st : ParseState) : ParseState × Option Str :=
  match runChunksBytes chunks [] st with
  | (_, st', some e) => (st', some e)
  | (buf, st', none) => flushTrailing buf st'

/-! Single-flight guard (`GenerationGuard`, agent.rs lines 57-72) and the
process-wide flags of `generate_app` / `edit_app` / `cancel_generation`. -/

/-- Error returned by `GenerationGuard::acquire` when the flag is held. -/
def alreadyRunningError : Str := "Another generation is already running".toList

namespace GenerationGuard

/-- Embeds `GenerationGuard::acquire`: the
`compare_exchange(false, true, SeqCst, SeqCst)` on `GENERATION_ACTIVE`
succeeds exactly when the flag is currently false, setting it to true;
on failure the flag keeps its value and an "already running" error is
returned.  The pair holds the flag value after the call. -/
def acquire (generation_active : Bool) : Bool × Option Str :=
  if generation_active then (generation_active, some alreadyRunningError)
  else (true, none)

/-- Embeds `Drop for GenerationGuard`: `GENERATION_ACTIVE.store(false)`;
it runs on every exit of `run_sidecar`, whatever the outcome. -/
def dropGuard (_generation_active : Bool) : Bool := false

end GenerationGuard

/-- Process-wide atomic flags `GENERATION_CANCELLED` and
`GENERATION_ACTIVE` (agent.rs lines 13-14). -/
structure GlobalFlags where
  generation_cancelled : Bool
  generation_active : Bool
deriving Repr, DecidableEq

/-- Embeds the first statement of both `generate_app` (line 329) and
`edit_app` (line 359): `GENERATION_CANCELLED.store(false, SeqCst)`,
executed before any validation, guard acquisition or spawning. -/
def resetCancellationFlag (g : GlobalFlags) : GlobalFlags :=
  { g with generation_cancelled := false }

/-! Streaming event loop of `run_sidecar` (agent.rs lines 190-238). -/

/-- Outcome of one wakeup of the 200 ms poll in `run_sidecar`: either the
timeout elapsed with no event, the channel closed (`rx.recv()` returned
`None`), or one of the `CommandEvent`s arrived. -/
inductive PollEvent where
  | timeout
  | closed
  | stdoutChunk (chunk : List Nat)
  | stderrLine (line : Str)
  | runtimeError (msg : Str)
  | terminated (code : Option Int)
deriving Repr, DecidableEq

/-- Result of running the loop over a finite list of poll observations. -/
inductive LoopOutcome where
  /-- The observations ran out with the loop still going. -/
  | running (stdout_buffer : Str) (st : ParseState)
  /-- The cancellation flag was observed set: the child is killed and the
  session returns `Err("Generation cancelled")`. -/
  | cancelled
  /-- A parser error, runtime error event, or nonzero exit: the session
  returns this error. -/
  | failed (msg : Str)
  /-- The loop broke cleanly (channel closed or zero/absent exit code) and
  proceeds to the trailing flush and finalization. -/
  | completed (stdout_buffer : Str) (st : ParseState)
deriving Repr, DecidableEq

/-- Embeds the `loop` of `run_sidecar`: each element of the list is one
wakeup, carrying the value of `GENERATION_CANCELLED` observed at the top
of the iteration and the poll outcome.  The flag is checked first; only
then is the event processed, exactly as in the source. -/
def streamLoop : List (Bool × PollEvent) → Str → ParseState → LoopOutcome
  | [], buf, st => .running buf st
  | (cancelled_flag, ev) :: polls, buf, st =>
    if cancelled_flag then .cancelled
    else
      match ev with
      | .timeout => streamLoop polls buf st
      | .closed => .completed buf st
      | .stdoutChunk chunk =>
        match process_sidecar_stdout_chunk_bytes chunk buf st with
        | (_, _, some e) => .failed e
        | (buf', st', none) => streamLoop polls buf' st'
      | .stderrLine _ => streamLoop polls buf st
      | .runtimeError m => .failed ("Sidecar error: ".toList ++ m)
      | .terminated code =>
        match code with
        | some c =>
          if c ≠ 0 then
            match st.error_occurred with
            | some e => .failed e
            | none => .failed ("Sidecar exited with code ".toList ++ (toString c).toList)
          else .completed buf st
        | none => .completed buf st

/-! Sidecar executable resolution (`resolve_sidecar_path`, agent.rs lines
269-318, and `validate_sidecar_executable`, lines 30-45). -/

/-- Paths are modelled as strings. -/
abbrev Path := Str

/-- What `fs::metadata` reports about an existing path. -/
structure FileMeta where
  is_file : Bool
  mode : Nat
deriving Repr, DecidableEq

/-- Environment a resolution runs in: the file system (`metadata` is
`none` exactly when the path does not exist, so `Path::exists` is
`isSome`), the directory of the running executable, the optional bundled
resource directory, the working directory, and the compile-time
`cfg(target_os = "macos")`, `cfg(unix)` and `cfg(target_arch)` facts. -/
structure SidecarEnv where
  meta : Path → Option FileMeta
  exe_dir : Path
  resource_dir : Option Path
  cwd : Option Path
  is_macos : Bool
  is_unix : Bool
  arch : Str

/-- Embeds `Path::exists`: `fs::metadata(path).is_ok()`. -/
def pathExists (env : SidecarEnv) (p : Path) : Bool := (env.meta p).isSome

/-- Builds `dir.join(child)`. -/
def joinPath (dir : Path) (child : Str) : Path := dir ++ '/' :: child

/-- Error message of `fs::metadata` failure in `validate_sidecar_executable`
(the Rust code formats the OS error into it; the model keeps the fixed
prose). -/
def inspectFailedError : Str := "Failed to inspect sidecar".toList

/-- Error for a candidate that exists but is not a regular file. -/
def notAFileError : Str := "Sidecar path is not a file".toList

/-- Error for a candidate with no executable permission bit (unix only). -/
def notExecutableError : Str := "Sidecar is not marked executable".toList

/-- Error of `resolve_sidecar_path` when every candidate location misses. -/
def sidecarNotFoundError (name : Str) : Str :=
  "Sidecar '".toList ++ name ++ "' not found next to executable or in resources".toList

/-- Embeds `validate_sidecar_executable` (agent.rs lines 30-45): inspect
the metadata, require a regular file, and on unix require at least one of
the 0o111 permission bits. -/
def validate_sidecar_executable (env : SidecarEnv) (path : Path) : Option Str :=
  match env.meta path with
  | none => some inspectFailedError
  | some metadata =>
    if !metadata.is_file then some notAFileError
    else if env.is_unix ∧ metadata.mode &&& 0o111 = 0 then some notExecutableError
    else none

/-- The macOS development-tree fallback block of `resolve_sidecar_path`
(agent.rs lines 290-312) followed by the final not-found error: only on
macOS with a known architecture and a readable working directory is
`src-tauri/binaries/<name>-<arch>-apple-darwin` considered, and only when
that path exists. -/
def resolveMacFallback (env : SidecarEnv) (name : Str) : Except Str Path :=
  if env.is_macos ∧ env.arch ≠ [] then
    match env.cwd with
    | some cwd =>
      let candidate :=
        joinPath (joinPath (joinPath cwd "src-tauri".toList) "binaries".toList)
          (name ++ "-".toList ++ env.arch ++ "-apple-darwin".toList)
      if pathExists env candidate then
        match validate_sidecar_executable env candidate with
        | some e => .error e
        | none => .ok candidate
      else .error (sidecarNotFoundError name)
    | none => .error (sidecarNotFoundError name)
  else .error (sidecarNotFoundError name)

/-- Embeds `resolve_sidecar_path` (agent.rs lines 269-318): try the
executable-adjacent candidate, then the bundled-resources candidate, then
the macOS development fallback; a candidate is skipped only when its path
does not exist, and an existing candidate is validated and returned (or
its validation error returned) without falling through. -/
def resolve_sidecar_path (env : SidecarEnv) (name : Str) : Except Str Path :=
  let candidate1 := joinPath env.exe_dir name
  if pathExists env candidate1 then
    match validate_sidecar_executable env candidate1 with
    | some e => .error e
    | none => .ok candidate1
  else
    match env.resource_dir with
    | some resource_dir =>
      let candidate2 := joinPath resource_dir name
      if pathExists env candidate2 then
        match validate_sidecar_executable env candidate2 with
        | some e => .error e
        | none => .ok candidate2
      else resolveMacFallback env name
    | none => resolveMacFallback env name

/-! Branch characterizations of `process_sidecar_output_line`. -/

theorem process_line_progress (raw_line : Str) (st : ParseState)
    (h : ("PROGRESS:".toList).isPrefixOf (trim raw_line) = true) :
    process_sidecar_output_line raw_line st = (st, none) := by
  simp at h
  simp [process_sidecar_output_line, h]

theorem process_line_html_start (raw_line : Str) (st : ParseState)
    (h : trim raw_line = "HTML_START".toList) :
    process_sidecar_output_line raw_line st =
      ({ st with collecting_html := true }, none) := by
  simp +decide [process_sidecar_output_line, h, List.isPrefixOf]

theorem process_line_html_end (raw_line : Str) (st : ParseState)
    (h : trim raw_line = "HTML_END".toList) :
    process_sidecar_output_line raw_line st =
      ({ st with collecting_html := false }, none) := by
  simp +decide [process_sidecar_output_line, h, List.isPrefixOf]

theorem process_line_error_report (raw_line : Str) (st : ParseState) (t : Str)
    (h : trim raw_line = "ERROR:".toList ++ t) :
    process_sidecar_output_line raw_line st =
      if st.error_occurred.isNone then ({ st with error_occurred := some t }, none)
      else (st, none) := by
  simp +decide [process_sidecar_output_line, h, List.isPrefixOf]

theorem process_line_content (raw_line : Str) (st : ParseState)
    (h1 : ("PROGRESS:".toList).isPrefixOf (trim raw_line) = false)
    (h2 : trim raw_line ≠ "HTML_START".toList)
    (h3 : trim raw_line ≠ "HTML_END".toList)
    (h4 : ("ERROR:".toList).isPrefixOf (trim raw_line) = false) :
    process_sidecar_output_line raw_line st =
      if st.collecting_html then
        if utf8Length st.html_content + utf8Length raw_line +
            (if st.html_content.isEmpty then 0 else 1) > MAX_HTML_BYTES then
          (st, some sizeLimitError)
        else
          ({ st with html_content :=
              st.html_content ++ (if st.html_content.isEmpty then [] else ['\n']) ++ raw_line },
            none)
      else (st, none) := by
  simp at h1 h2 h3 h4
  simp [process_sidecar_output_line, h1, h2, h3, h4]

theorem process_line_error_only_size (raw_line : Str) (st : ParseState) (e : Str)
    (h : (process_sidecar_output_line raw_line st).2 = some e) :
    (process_sidecar_output_line raw_line st).1 = st ∧ e = sizeLimitError := by
  by_cases hp : ("PROGRESS:".toList).isPrefixOf (trim raw_line) = true
  · rw [process_line_progress _ _ hp] at h
    exact absurd h (by simp)
  · by_cases hs : trim raw_line = "HTML_START".toList
    · rw [process_line_html_start _ _ hs] at h
      exact absurd h (by simp)
    · by_cases he : trim raw_line = "HTML_END".toList
      · rw [process_line_html_end _ _ he] at h
        exact absurd h (by simp)
      · by_cases her : ("ERROR:".toList).isPrefixOf (trim raw_line) = true
        · obtain ⟨t, ht⟩ := List.isPrefixOf_iff_prefix.mp her
          rw [process_line_error_report _ _ t ht.symm] at h
          split_ifs at h
        · rw [process_line_content _ _ (Bool.not_eq_true _ ▸ hp) hs he
            (Bool.not_eq_true _ ▸ her)] at h ⊢
          split_ifs at h ⊢ <;> simp_all

/-! Claim theorems. -/

/-- C1: a line whose trimmed form is a protocol marker (a `PROGRESS:`
prefix, exactly `HTML_START` or `HTML_END`, or an `ERROR:` prefix) is
never appended to the HTML accumulator; any other line is appended
verbatim — preceded by a single newline separator unless the accumulator
is empty — when the capture flag is on (and the size cap allows it), and
is ignored when the flag is off; and the example stdout stream yields
exactly the payload `<!DOCTYPE html>\n<html></html>` with no error. -/
theorem c1_line_classification_and_example (raw_line : Str) (st : ParseState) :
    ((("PROGRESS:".toList).isPrefixOf (trim raw_line) = true
        ∨ trim raw_line = "HTML_START".toList
        ∨ trim raw_line = "HTML_END".toList
        ∨ ("ERROR:".toList).isPrefixOf (trim raw_line) = true) →
      (process_sidecar_output_line raw_line st).1.html_content = st.html_content) ∧
    ((("PROGRESS:".toList).isPrefixOf (trim raw_line) = false ∧
        trim raw_line ≠ "HTML_START".toList ∧
        trim raw_line ≠ "HTML_END".toList ∧
        ("ERROR:".toList).isPrefixOf (trim raw_line) = false) →
      (st.collecting_html = true →
        utf8Length st.html_content + utf8Length raw_line +
            (if st.html_content.isEmpty then 0 else 1) ≤ MAX_HTML_BYTES →
        process_sidecar_output_line raw_line st =
          ({ st with html_content :=
              st.html_content ++ (if st.html_content.isEmpty then [] else ['\n']) ++ raw_line },
            none)) ∧
      (st.collecting_html = false →
        process_sidecar_output_line raw_line st = (st, none))) ∧
    runStream
        ["PROGRESS:Generating...\nHTML_START\n<!DOCTYPE html>\n<html></html>\nHTML_END\n".toList]
        initState =
      (⟨"<!DOCTYPE html>\n<html></html>".toList, false, none⟩, none) := by
  refine ⟨?_, ?_, by decide⟩
  · rintro (hp | hs | he | her)
    · rw [process_line_progress _ _ hp]
    · rw [process_line_html_start _ _ hs]
    · rw [process_line_html_end _ _ he]
    · obtain ⟨t, ht⟩ := List.isPrefixOf_iff_prefix.mp her
      rw [process_line_error_report _ _ t ht.symm]
      split_ifs <;> rfl
  · rintro ⟨h1, h2, h3, h4⟩
    refine ⟨?_, ?_⟩
    · intro hc hsize
      rw [process_line_content _ _ h1 h2 h3 h4, hc, if_pos rfl,
        if_neg (by omega)]
    · intro hc
      rw [process_line_content _ _ h1 h2 h3 h4, hc, if_neg (by simp)]

theorem c1_witness :
    process_sidecar_output_line "<p>hi</p>".toList ⟨"x".toList, true, none⟩ =
      (⟨"x\n<p>hi</p>".toList, true, none⟩, none) := by
  have h := ((c1_line_classification_and_example "<p>hi</p>".toList
      ⟨"x".toList, true, none⟩).2.1 ⟨by decide, by decide, by decide, by decide⟩).1
    rfl (by decide)
  exact h.trans (by decide)

/-- C2: for an appendable line arriving while capture is active, the
parser fails with the size-exceeded error exactly when the prospective new
accumulator length (current length + line length + 1 for the separator if
the accumulator is non-empty) exceeds 10485760 bytes, and in that case the
state — in particular the accumulator — is left unchanged, nothing being
truncated or partially appended; the final flush at stream end routes
through the very same per-line check. -/
theorem c2_size_cap_enforcement (raw_line : Str) (st : ParseState)
    (h1 : ("PROGRESS:".toList).isPrefixOf (trim raw_line) = false)
    (h2 : trim raw_line ≠ "HTML_START".toList)
    (h3 : trim raw_line ≠ "HTML_END".toList)
    (h4 : ("ERROR:".toList).isPrefixOf (trim raw_line) = false)
    (hc : st.collecting_html = true) :
    MAX_HTML_BYTES = 10485760 ∧
    (utf8Length st.html_content + utf8Length raw_line +
        (if st.html_content.isEmpty then 0 else 1) > MAX_HTML_BYTES ↔
      process_sidecar_output_line raw_line st = (st, some sizeLimitError)) ∧
    (utf8Length st.html_content + utf8Length raw_line +
        (if st.html_content.isEmpty then 0 else 1) ≤ MAX_HTML_BYTES →
      process_sidecar_output_line raw_line st =
        ({ st with html_content :=
            st.html_content ++ (if st.html_content.isEmpty then [] else ['\n']) ++ raw_line },
          none)) ∧
    (∀ buffer : Str, buffer.isEmpty = false →
      flushTrailing buffer st = process_sidecar_output_line (trimEndMatchesCR buffer) st) := by
  refine ⟨by decide, ⟨?_, ?_⟩, ?_, ?_⟩
  · intro hover
    rw [process_line_content _ _ h1 h2 h3 h4, hc, if_pos rfl, if_pos hover]
  · intro heq
    rw [process_line_content _ _ h1 h2 h3 h4, hc, if_pos rfl] at heq
    by_cases hover : utf8Length st.html_content + utf8Length raw_line +
        (if st.html_content.isEmpty then 0 else 1) > MAX_HTML_BYTES
    · exact hover
    · rw [if_neg hover] at heq
      exact absurd (congrArg Prod.snd heq) (by simp)
  · intro hle
    rw [process_line_content _ _ h1 h2 h3 h4, hc, if_pos rfl, if_neg (by omega)]
  · intro buffer hb
    rw [flushTrailing, if_neg (by simp [hb])]

theorem c2_witness :
    process_sidecar_output_line "<p>hi</p>".toList ⟨[], true, none⟩ =
      (⟨"<p>hi</p>".toList, true, none⟩, none) := by
  have h := (c2_size_cap_enforcement "<p>hi</p>".toList ⟨[], true, none⟩
      (by decide) (by decide) (by decide) (by decide) rfl).2.2.1 (by decide)
  exact h.trans (by decide)

/-- C5 counterexample: processing the bare line `ERROR:` on a fresh
session records `some ""` — the empty string itself — as the session
error, refuting the claim that a non-empty generic placeholder message is
recorded. -/
theorem c5_counterexample :
    (process_sidecar_output_line "ERROR:".toList initState).1.error_occurred = some [] := by
  decide

/-- C5 amended: when a trimmed line is exactly `ERROR:` (empty remainder
after the prefix) and no error is recorded yet, the parser records the
empty string — not a placeholder — as the session error; the recorded
empty message still blocks any later error line. -/
theorem c5_empty_error_records_empty_string (raw_line : Str) (st : ParseState)
    (h : trim raw_line = "ERROR:".toList) (he : st.error_occurred = none) :
    process_sidecar_output_line raw_line st =
      ({ st with error_occurred := some [] }, none) := by
  have hr := process_line_error_report raw_line st [] (by simpa using h)
  rw [hr, if_pos (by simp [he])]

theorem c5_witness :
    process_sidecar_output_line "ERROR:".toList initState =
      ({ initState with error_occurred := some [] }, none) :=
  c5_empty_error_records_empty_string "ERROR:".toList initState (by decide) rfl

/-- C6: the first `ERROR:` line wins: `ERROR:Helper not found` records the
message `Helper not found` when no error is present yet; a later `ERROR:`
line leaves an already-recorded error untouched; and no `ERROR:`-prefixed
line is ever emitted into the HTML accumulator, whatever the capture
flag. -/
theorem c6_first_error_wins :
    (∀ st : ParseState, st.error_occurred = none →
      process_sidecar_output_line "ERROR:Helper not found".toList st =
        ({ st with error_occurred := some "Helper not found".toList }, none)) ∧
    (∀ (raw_line : Str) (st : ParseState) (e : Str),
      ("ERROR:".toList).isPrefixOf (trim raw_line) = true →
      st.error_occurred = some e →
      process_sidecar_output_line raw_line st = (st, none)) ∧
    (∀ (raw_line : Str) (st : ParseState),
      ("ERROR:".toList).isPrefixOf (trim raw_line) = true →
      (process_sidecar_output_line raw_line st).1.html_content = st.html_content) := by
  refine ⟨?_, ?_, ?_⟩
  · intro st hnone
    have h := process_line_error_report "ERROR:Helper not found".toList st
      "Helper not found".toList (by decide)
    rw [h, if_pos (by simp [hnone])]
  · intro raw_line st e her hsome
    obtain ⟨t, ht⟩ := List.isPrefixOf_iff_prefix.mp her
    rw [process_line_error_report _ _ t ht.symm, if_neg (by simp [hsome])]
  · intro raw_line st her
    obtain ⟨t, ht⟩ := List.isPrefixOf_iff_prefix.mp her
    rw [process_line_error_report _ _ t ht.symm]
    split_ifs <;> rfl

theorem c6_witness :
    process_sidecar_output_line "ERROR:Helper not found".toList initState =
      ({ initState with error_occurred := some "Helper not found".toList }, none) :=
  c6_first_error_wins.1 initState rfl

/-- C10: whenever the per-line parser step returns an error (necessarily
the size-exceeded one), the entire session parse state — the HTML
accumulator with no separator added, the inside-HTML-region flag, and the
recorded-error option — is exactly what it was before the call. -/
theorem c10_size_error_leaves_state_unchanged (raw_line : Str) (st : ParseState) (e : Str)
    (h : (process_sidecar_output_line raw_line st).2 = some e) :
    (process_sidecar_output_line raw_line st).1 = st ∧ e = sizeLimitError :=
  process_line_error_only_size raw_line st e h

/-- State whose accumulator already holds `MAX_HTML_BYTES` bytes of ASCII
text, used to exercise the size check on a concrete input. -/
def bigState : ParseState := ⟨'a' :: List.replicate (MAX_HTML_BYTES - 1) 'a', true, none⟩

theorem utf8Length_cons (c : Char) (l : Str) :
    utf8Length (c :: l) = c.utf8Size + utf8Length l := rfl

theorem utf8Length_replicate (n : Nat) (c : Char) :
    utf8Length (List.replicate n c) = n * c.utf8Size := by
  induction n with
  | zero => simp [utf8Length]
  | succ n ih =>
    rw [List.replicate_succ,
      show utf8Length (c :: List.replicate n c) =
        c.utf8Size + utf8Length (List.replicate n c) from rfl,
      ih]
    ring

theorem c10_witness : (process_sidecar_output_line ['b', 'c'] bigState).1 = bigState := by
  have hcontent := process_line_content ['b', 'c'] bigState
    (by decide) (by decide) (by decide) (by decide)
  have hc : bigState.collecting_html = true := rfl
  have he : bigState.html_content.isEmpty = false := rfl
  have hlen : utf8Length bigState.html_content = MAX_HTML_BYTES := by
    rw [show bigState.html_content = 'a' :: List.replicate (MAX_HTML_BYTES - 1) 'a' from rfl,
      utf8Length_cons, utf8Length_replicate]
    decide
  have hbig : utf8Length bigState.html_content + utf8Length (['b', 'c'] : Str) +
      (if bigState.html_content.isEmpty then 0 else 1) > MAX_HTML_BYTES := by
    rw [hlen, he, if_neg Bool.false_ne_true,
      show utf8Length (['b', 'c'] : Str) = 2 from rfl]
    omega
  have h2 : (process_sidecar_output_line ['b', 'c'] bigState).2 = some sizeLimitError := by
    rw [hcontent, if_pos hc, if_pos hbig]
  exact (c10_size_error_leaves_state_unchanged ['b', 'c'] bigState sizeLimitError h2).1

/-- C7: the single-flight flag admits at most one holder at a time: an
acquire while the flag is held fails immediately with the "already
running" error and changes nothing; an acquire while it is clear succeeds
and sets it (so a second concurrent acquire fails); and after the guard of
a terminated session is dropped — whatever the outcome — the flag is
false, so a fresh acquire succeeds. -/
theorem c7_single_flight_mutual_exclusion (flag : Bool) :
    (flag = true →
      GenerationGuard.acquire flag = (flag, some alreadyRunningError)) ∧
    (flag = false → GenerationGuard.acquire flag = (true, none)) ∧
    ((GenerationGuard.acquire flag).2 = none → flag = false) ∧
    (GenerationGuard.acquire (GenerationGuard.acquire false).1 =
      ((GenerationGuard.acquire false).1, some alreadyRunningError)) ∧
    GenerationGuard.acquire (GenerationGuard.dropGuard flag) = (true, none) := by
  cases flag <;> simp [GenerationGuard.acquire, GenerationGuard.dropGuard]

theorem c7_witness :
    GenerationGuard.acquire true = (true, some alreadyRunningError) :=
  (c7_single_flight_mutual_exclusion true).1 rfl

/-- Composition of the streaming loop over concatenated poll lists: the
second list matters only if the first leaves the loop still running. -/
theorem streamLoop_append (p₁ p₂ : List (Bool × PollEvent)) (buf : Str) (st : ParseState) :
    streamLoop (p₁ ++ p₂) buf st =
      match streamLoop p₁ buf st with
      | .running b s => streamLoop p₂ b s
      | r => r := by
  induction p₁ generalizing buf st with
  | nil => simp [streamLoop]
  | cons pe polls ih =>
    obtain ⟨flag, ev⟩ := pe
    cases flag
    · cases ev with
      | stdoutChunk chunk =>
        simp only [List.cons_append, streamLoop, Bool.false_eq_true, if_false]
        rcases hp : process_sidecar_stdout_chunk_bytes chunk buf st with ⟨buf', st', e⟩
        cases e <;> simp [ih]
      | terminated code =>
        simp only [List.cons_append, streamLoop, Bool.false_eq_true, if_false]
        cases code with
        | none => rfl
        | some c =>
          by_cases hc : c = 0
          · simp [hc]
          · cases herr : st.error_occurred <;> simp [hc, herr]
      | timeout => simpa [streamLoop] using ih buf st
      | closed => simp [streamLoop]
      | stderrLine l => simpa [streamLoop] using ih buf st
      | runtimeError m => simp [streamLoop]
    · simp [streamLoop]

/-- C8: every new generation request (`generate_app` or `edit_app`) stores
false into the process-wide cancellation flag as its very first statement;
and whenever the streaming loop — still running — observes the
cancellation flag set at a poll point, it terminates with the cancelled
outcome at once (the source also kills the child there), processing
neither the event delivered at that wakeup nor any later one. -/
theorem c8_cancellation_reset_and_poll (g : GlobalFlags)
    (p₁ p₂ : List (Bool × PollEvent)) (ev : PollEvent) (buf b : Str)
    (st s : ParseState) (h : streamLoop p₁ buf st = .running b s) :
    (resetCancellationFlag g).generation_cancelled = false ∧
    streamLoop (p₁ ++ (true, ev) :: p₂) buf st = .cancelled := by
  refine ⟨rfl, ?_⟩
  rw [streamLoop_append, h]
  simp [streamLoop]

theorem c8_witness :
    streamLoop [(false, .timeout), (true, .timeout)] [] initState = .cancelled :=
  (c8_cancellation_reset_and_poll ⟨true, true⟩ [(false, .timeout)] []
    .timeout [] [] initState initState rfl).2

/-- C9: sidecar resolution tries the executable-adjacent candidate, the
bundled-resources candidate, then the macOS development-tree candidate (a
path encoding the CPU architecture), falling through only when a
candidate's path does not exist; every existing candidate is validated —
a regular file with at least one executable permission bit on POSIX — and
its validation error is returned rather than falling through. -/
theorem c9_resolution_order_and_validation (env : SidecarEnv) (name : Str) :
    (pathExists env (joinPath env.exe_dir name) = true →
      resolve_sidecar_path env name =
        match validate_sidecar_executable env (joinPath env.exe_dir name) with
        | some e => .error e
        | none => .ok (joinPath env.exe_dir name)) ∧
    (∀ rd, pathExists env (joinPath env.exe_dir name) = false →
      env.resource_dir = some rd →
      pathExists env (joinPath rd name) = true →
      resolve_sidecar_path env name =
        match validate_sidecar_executable env (joinPath rd name) with
        | some e => .error e
        | none => .ok (joinPath rd name)) ∧
    (pathExists env (joinPath env.exe_dir name) = false →
      (env.resource_dir = none ∨
        ∃ rd, env.resource_dir = some rd ∧ pathExists env (joinPath rd name) = false) →
      resolve_sidecar_path env name = resolveMacFallback env name) ∧
    (∀ cwd, env.is_macos = true → env.arch ≠ [] → env.cwd = some cwd →
      pathExists env (joinPath (joinPath (joinPath cwd "src-tauri".toList) "binaries".toList)
          (name ++ "-".toList ++ env.arch ++ "-apple-darwin".toList)) = true →
      resolveMacFallback env name =
        match validate_sidecar_executable env
            (joinPath (joinPath (joinPath cwd "src-tauri".toList) "binaries".toList)
              (name ++ "-".toList ++ env.arch ++ "-apple-darwin".toList)) with
        | some e => .error e
        | none => .ok (joinPath (joinPath (joinPath cwd "src-tauri".toList) "binaries".toList)
            (name ++ "-".toList ++ env.arch ++ "-apple-darwin".toList))) ∧
    (∀ p m, env.meta p = some m →
      (validate_sidecar_executable env p = none ↔
        m.is_file = true ∧ (env.is_unix = true → m.mode &&& 0o111 ≠ 0))) := by
  refine ⟨?_, ?_, ?_, ?_, ?_⟩
  · intro h1
    simp only [resolve_sidecar_path, h1, if_true]
  · intro rd h1 hrd h2
    simp only [resolve_sidecar_path, h1, Bool.false_eq_true, if_false, hrd, h2, if_true]
  · intro h1 h2
    rcases h2 with hnone | ⟨rd, hrd, hne⟩
    · simp only [resolve_sidecar_path, h1, Bool.false_eq_true, if_false, hnone]
    · simp only [resolve_sidecar_path, h1, Bool.false_eq_true, if_false, hrd, hne]
  · intro cwd hmac harch hcwd hex
    simp only [resolveMacFallback, hmac, harch, hcwd, hex, if_true, ne_eq,
      not_false_iff, and_true, true_and, if_pos]
  · intro p m hm
    simp only [validate_sidecar_executable, hm]
    constructor
    · intro hv
      by_cases hf : m.is_file
      · refine ⟨hf, ?_⟩
        intro hu hz
        rw [if_neg (by simp [hf]), if_pos ⟨hu, hz⟩] at hv
        exact absurd hv (by simp)
      · rw [if_pos (by simp [hf])] at hv
        exact absurd hv (by simp)
    · rintro ⟨hf, hu⟩
      rw [if_neg (by simp [hf]), if_neg ?_]
      rintro ⟨hux, hz⟩
      exact hu hux hz

/-- Concrete resolution environment: a unix system whose only file is the
sidecar next to the executable, marked 0o755. -/
def unixEnv : SidecarEnv where
  meta := fun p => if p = "/app/trove-sidecar".toList then some ⟨true, 0o755⟩ else none
  exe_dir := "/app".toList
  resource_dir := none
  cwd := none
  is_macos := false
  is_unix := true
  arch := []

theorem c9_witness :
    resolve_sidecar_path unixEnv "trove-sidecar".toList =
      .ok ("/app/trove-sidecar".toList) := by
  have h := (c9_resolution_order_and_validation unixEnv "trove-sidecar".toList).1 (by decide)
  exact h.trans rfl

/-! Composition lemmas for the draining scan, used to compare chunked and
unchunked feeding of the same stream. -/

theorem drainGo_skip (pre : Str) (t line : Str) (st : ParseState) (h : '\n' ∉ pre) :
    drainGo st line (pre ++ t) = drainGo st (line ++ pre) t := by
  induction pre generalizing line with
  | nil => simp
  | cons c pre' ih =>
    have hc : c ≠ '\n' := fun hx => h (hx ▸ List.mem_cons_self c pre')
    have h' : '\n' ∉ pre' := fun hx => h (List.mem_cons_of_mem c hx)
    simp only [List.cons_append, drainGo, if_neg hc]
    rw [show line ++ c :: pre' = line ++ [c] ++ pre' by simp]
    exact ih (line ++ [c]) h' 

theorem drainGo_no_newline (s line : Str) (st : ParseState) (h : '\n' ∉ s) :
    drainGo st line s = (line ++ s, st, none) := by
  have := drainGo_skip s [] line st h
  rw [List.append_nil] at this
  rw [this]
  rfl

theorem drainGo_append (s t line : Str) (st : ParseState) :
    drainGo st line (s ++ t) =
      match drainGo st line s with
      | (b, st', some e) => (b ++ t, st', some e)
      | (b, st', none) => drainGo st' b t := by
  induction s generalizing line st with
  | nil => simp [drainGo]
  | cons c s' ih =>
    by_cases hc : c = '\n'
    · subst hc
      simp only [List.cons_append, drainGo, if_pos rfl]
      rcases hp : process_sidecar_output_line (stripCR line) st with ⟨st', e⟩
      cases e with
      | some e => simp
      | none => simp [ih]
    · simp only [List.cons_append, drainGo, if_neg hc]
      exact ih (line ++ [c]) st

theorem drainGo_ok_no_newline (s line : Str) (st : ParseState)
    (hline : '\n' ∉ line) (h : (drainGo st line s).2.2 = none) :
    '\n' ∉ (drainGo st line s).1 := by
  induction s generalizing line st with
  | nil => simpa [drainGo] using hline
  | cons c s' ih =>
    by_cases hc : c = '\n'
    · subst hc
      have hgo : drainGo st line ('\n' :: s') =
          match process_sidecar_output_line (stripCR line) st with
          | (st2, some e) => (line ++ '\n' :: s', st2, some e)
          | (st2, none) => drainGo st2 [] s' := rfl
      rcases hp : process_sidecar_output_line (stripCR line) st with ⟨st', e⟩
      cases e with
      | some e2 => rw [hgo, hp] at h; simp at h
      | none =>
        rw [hgo, hp] at h ⊢
        exact ih [] st' (by simp) h
    · simp only [drainGo, if_neg hc] at h ⊢
      refine ih (line ++ [c]) st ?_ h
      intro hx
      rcases List.mem_append.mp hx with hx | hx
      · exact hline hx
      · simp at hx
        exact hc hx.symm

/-- Feeding a list of chunks equals feeding their concatenation as one
chunk, as far as the parse state and the error are concerned; on success
the pending buffers agree as well (on a parser error the chunked run has
not yet appended the later chunks to its buffer, but the session is
terminated at that point and the buffer discarded). -/
theorem runChunks_state_join (chunks : List Str) (buf : Str) (st : ParseState)
    (hbuf : '\n' ∉ buf) :
    (runChunks chunks buf st).2 = (drainLines (buf ++ chunks.flatten) st).2 ∧
    ((runChunks chunks buf st).2.2 = none →
      (runChunks chunks buf st).1 = (drainLines (buf ++ chunks.flatten) st).1) := by
  induction chunks generalizing buf st with
  | nil =>
    rw [List.flatten_nil, List.append_nil]
    rw [show runChunks [] buf st = (buf, st, none) from rfl]
    rw [drainLines, drainGo_no_newline buf [] st hbuf]
    exact ⟨rfl, fun _ => rfl⟩
  | cons c cs ih =>
    have hstep : drainLines (buf ++ (c :: cs).flatten) st =
        match drainLines (buf ++ c) st with
        | (b, st', some e) => (b ++ cs.flatten, st', some e)
        | (b, st', none) => drainGo st' b cs.flatten := by
      rw [List.flatten_cons, drainLines, ← List.append_assoc, drainGo_append]
      rfl
    rw [show runChunks (c :: cs) buf st =
        (match process_sidecar_stdout_chunk c buf st with
          | (buf', st', some e) => (buf', st', some e)
          | (buf', st', none) => runChunks cs buf' st') from rfl]
    rw [show process_sidecar_stdout_chunk c buf st = drainLines (buf ++ c) st from rfl]
    rcases hd : drainLines (buf ++ c) st with ⟨b, st', e⟩
    cases e with
    | some e =>
      rw [hstep, hd]
      exact ⟨rfl, fun hcontra => absurd hcontra (by simp)⟩
    | none =>
      have hb : '\n' ∉ b := by
        have := drainGo_ok_no_newline (buf ++ c) [] st (by simp)
        rw [drainLines] at hd
        rw [hd] at this
        exact this rfl
      have hskip : drainLines (b ++ cs.flatten) st' = drainGo st' b cs.flatten := by
        rw [drainLines, drainGo_skip b cs.flatten [] st' hb]
        rfl
      have hih := ih b st' hb
      rw [hskip] at hih
      rw [hstep, hd]
      exact hih

/-- C4 counterexample: the byte stream `HTML_START\n C3 A9 \nHTML_END\n`
(a two-byte UTF-8 character between the sentinels) reaches a different
final parser state when split at the byte offset between `C3` and `A9`
than when fed whole: `String::from_utf8_lossy` runs per chunk, so each
half of the split character becomes a U+FFFD replacement character, while
the unsplit stream decodes the character itself — the accumulators
differ.  Splitting at an arbitrary byte offset is therefore not
state-preserving. -/
theorem c4_counterexample :
    runStreamBytes
        [asciiBytes "HTML_START\n" ++ [0xC3], [0xA9] ++ asciiBytes "\nHTML_END\n"]
        initState ≠
      runStreamBytes
        [asciiBytes "HTML_START\n" ++ [0xC3, 0xA9] ++ asciiBytes "\nHTML_END\n"]
        initState := by
  decide

/-- C4 amended: splitting the decoded stream into chunks at any character
offsets — equivalently, at byte offsets lying on UTF-8 character
boundaries — and feeding the chunks to the framer-plus-parser pipeline
produces exactly the same final parser state (accumulator, inside-HTML
flag, recorded error, and success/failure) as feeding the whole stream as
one chunk; in particular the sentinel `HTML_START` split as `HTML_STA` /
`RT\n` is recognized identically to the unsplit case. -/
theorem c4_chunking_invariance (chunks : List Str) (st : ParseState) :
    runStream chunks st = runStream [chunks.flatten] st ∧
    runStream ["HTML_STA".toList, "RT\n<body>\n".toList] initState =
      runStream ["HTML_START\n<body>\n".toList] initState := by
  refine ⟨?_, by decide⟩
  have hone : runChunks [chunks.flatten] [] st = drainLines chunks.flatten st := by
    have hdl : process_sidecar_stdout_chunk chunks.flatten [] st =
        drainLines chunks.flatten st := rfl
    rw [← hdl]
    rcases hd : process_sidecar_stdout_chunk chunks.flatten [] st with ⟨b, st', e⟩
    cases e <;> simp [runChunks, hd]
  have hm := runChunks_state_join chunks [] st (by simp)
  simp only [List.nil_append] at hm
  rcases hr : runChunks chunks [] st with ⟨b1, st1, e1⟩
  rcases hd : drainLines chunks.flatten st with ⟨b2, st2, e2⟩
  rw [hr, hd] at hm
  obtain ⟨hpair, hbufeq⟩ := hm
  rw [Prod.mk.injEq] at hpair
  obtain ⟨hst, he⟩ := hpair
  subst hst
  subst he
  rw [hd] at hone
  simp only [runStream, hone, hr]
  cases e1 with
  | some e => rfl
  | none =>
    have hb : b1 = b2 := hbufeq rfl
    subst hb
    rfl

/-! Lemmas for the framer round-trip property. -/

theorem stripCR_cons (c : Char) (l : Str) (h : l ≠ []) :
    stripCR (c :: l) = c :: stripCR l := by
  cases l with
  | nil => exact absurd rfl h
  | cons b l' =>
    unfold stripCR
    rw [List.getLast?_cons_cons]
    split_ifs with hx
    · rw [List.dropLast_cons₂]
    · rfl

theorem normalizeCRLF_single (c : Char) : normalizeCRLF [c] = [c] := by
  rw [normalizeCRLF.eq_def]
  split <;> simp_all [normalizeCRLF]

theorem normalizeCRLF_cons_cons (c c2 : Char) (rest : Str) (h : ¬(c = '\r' ∧ c2 = '\n')) :
    normalizeCRLF (c :: c2 :: rest) = c :: normalizeCRLF (c2 :: rest) := by
  rw [normalizeCRLF.eq_def]
  split <;> simp_all

theorem normalizeCRLF_newline_cons (r : Str) :
    normalizeCRLF ('\n' :: r) = '\n' :: normalizeCRLF r := by
  cases r with
  | nil => rw [normalizeCRLF_single]; rfl
  | cons c2 r' =>
    exact normalizeCRLF_cons_cons '\n' c2 r' (fun hp => absurd hp.1 (by decide))

theorem normalizeCRLF_no_newline (l : Str) (h : '\n' ∉ l) : normalizeCRLF l = l := by
  induction l with
  | nil => rfl
  | cons c l' ih =>
    have h' : '\n' ∉ l' := fun hx => h (List.mem_cons_of_mem c hx)
    cases l' with
    | nil => exact normalizeCRLF_single c
    | cons c2 l'' =>
      have hc2 : c2 ≠ '\n' := fun hx => h' (hx ▸ List.mem_cons_self c2 l'')
      rw [normalizeCRLF_cons_cons c c2 l'' (fun hp => hc2 hp.2), ih h']

theorem normalizeCRLF_line (l r : Str) (h : '\n' ∉ l) :
    normalizeCRLF (l ++ '\n' :: r) = stripCR l ++ '\n' :: normalizeCRLF r := by
  induction l with
  | nil => rw [List.nil_append, normalizeCRLF_newline_cons]; rfl
  | cons c l' ih =>
    have h' : '\n' ∉ l' := fun hx => h (List.mem_cons_of_mem c hx)
    cases l' with
    | nil =>
      by_cases hcr : c = '\r'
      · subst hcr
        rw [show (['\r'] : Str) ++ '\n' :: r = '\r' :: '\n' :: r from rfl]
        rw [show normalizeCRLF ('\r' :: '\n' :: r) = '\n' :: normalizeCRLF r from rfl]
        rfl
      · rw [show ([c] : Str) ++ '\n' :: r = c :: '\n' :: r from rfl]
        rw [normalizeCRLF_cons_cons c '\n' r (fun hp => hcr hp.1),
          normalizeCRLF_newline_cons]
        simp [stripCR, hcr]
    | cons c2 l'' =>
      have hc2 : c2 ≠ '\n' := fun hx => h' (hx ▸ List.mem_cons_self c2 l'')
      rw [List.cons_append,
        show (c2 :: l'') ++ '\n' :: r = c2 :: (l'' ++ '\n' :: r) from rfl,
        normalizeCRLF_cons_cons c c2 (l'' ++ '\n' :: r) (fun hp => hc2 hp.2),
        show (c2 : Char) :: (l'' ++ '\n' :: r) = (c2 :: l'') ++ '\n' :: r from rfl,
        ih h', stripCR_cons c (c2 :: l'') (by simp)]
      rfl

theorem dropWhile_append_newline (p : Char → Bool) (hp : p '\n' = false) (a b : Str) :
    List.dropWhile p (a ++ '\n' :: b) = List.dropWhile p a ++ '\n' :: b := by
  rw [List.dropWhile_append]
  split_ifs with hx
  · rw [List.isEmpty_iff] at hx
    rw [hx, List.nil_append, List.dropWhile_cons, hp]
    simp
  · rfl

theorem trimEndMatchesCR_append_newline (x y : Str) :
    trimEndMatchesCR (x ++ '\n' :: y) = x ++ '\n' :: trimEndMatchesCR y := by
  unfold trimEndMatchesCR
  rw [List.reverse_append, List.reverse_cons, List.append_assoc,
    show (['\n'] : Str) ++ x.reverse = '\n' :: x.reverse from rfl,
    dropWhile_append_newline _ (by decide),
    List.reverse_append, List.reverse_cons]
  simp

theorem joinNL_cons (a : Str) (ls : List Str) (h : ls ≠ []) :
    joinNL (a :: ls) = a ++ '\n' :: joinNL ls := by
  cases ls with
  | nil => exact absurd rfl h
  | cons b ls' => rfl

theorem frameGo_skip (pre t line : Str) (h : '\n' ∉ pre) :
    frameGo line (pre ++ t) = frameGo (line ++ pre) t := by
  induction pre generalizing line with
  | nil => simp
  | cons c pre' ih =>
    have hc : c ≠ '\n' := fun hx => h (hx ▸ List.mem_cons_self c pre')
    have h' : '\n' ∉ pre' := fun hx => h (List.mem_cons_of_mem c hx)
    simp only [List.cons_append, frameGo, if_neg hc]
    rw [show line ++ c :: pre' = line ++ [c] ++ pre' by simp]
    exact ih (line ++ [c]) h'

theorem frameGo_buffer_no_newline (s line : Str) (hline : '\n' ∉ line) :
    '\n' ∉ (frameGo line s).2 := by
  induction s generalizing line with
  | nil => simpa [frameGo] using hline
  | cons c s' ih =>
    by_cases hc : c = '\n'
    · subst hc
      simp only [frameGo, if_pos rfl]
      exact ih [] (by simp)
    · simp only [frameGo, if_neg hc]
      refine ih (line ++ [c]) ?_
      intro hx
      rcases List.mem_append.mp hx with hx | hx
      · exact hline hx
      · simp at hx
        exact hc hx.symm

theorem frameGo_append (s t line : Str) :
    frameGo line (s ++ t) =
      ((frameGo line s).1 ++ (frameGo (frameGo line s).2 t).1,
        (frameGo (frameGo line s).2 t).2) := by
  induction s generalizing line with
  | nil => simp [frameGo]
  | cons c s' ih =>
    by_cases hc : c = '\n'
    · subst hc
      rw [List.cons_append,
        show frameGo line ('\n' :: (s' ++ t)) =
          (stripCR line :: (frameGo [] (s' ++ t)).1, (frameGo [] (s' ++ t)).2) from rfl,
        show frameGo line ('\n' :: s') =
          (stripCR line :: (frameGo [] s').1, (frameGo [] s').2) from rfl,
        ih []]
      rfl
    · rw [List.cons_append,
        show frameGo line (c :: (s' ++ t)) = frameGo (line ++ [c]) (s' ++ t) by
          simp only [frameGo, if_neg hc],
        show frameGo line (c :: s') = frameGo (line ++ [c]) s' by
          simp only [frameGo, if_neg hc]]
      exact ih (line ++ [c])

theorem frameFeed_join (cs : List Str) (buf : Str) (h : '\n' ∉ buf) :
    frameFeed cs buf = frameGo buf cs.flatten := by
  induction cs generalizing buf with
  | nil =>
    rw [List.flatten_nil]
    rfl
  | cons c cs' ih =>
    have hskip : frameGo [] (buf ++ c) = frameGo buf c := by
      simpa using frameGo_skip buf c [] h
    have hb : '\n' ∉ (frameGo buf c).2 := frameGo_buffer_no_newline c buf h
    simp only [frameFeed, frameLines, List.flatten_cons]
    rw [hskip, ih (frameGo buf c).2 hb, frameGo_append]

theorem frame_reconstruction (s line : Str) (hline : '\n' ∉ line) :
    joinNL ((frameGo line s).1 ++ [trimEndMatchesCR (frameGo line s).2]) =
      trimEndMatchesCR (normalizeCRLF (line ++ s)) := by
  induction s generalizing line with
  | nil =>
    rw [show frameGo line [] = ([], line) from rfl, List.append_nil,
      normalizeCRLF_no_newline line hline]
    rfl
  | cons c s' ih =>
    by_cases hc : c = '\n'
    · subst hc
      rw [show frameGo line ('\n' :: s') =
          (stripCR line :: (frameGo [] s').1, (frameGo [] s').2) from rfl]
      rw [List.cons_append, joinNL_cons _ _ (by simp)]
      have hih := ih [] (by simp)
      rw [List.nil_append] at hih
      rw [hih, normalizeCRLF_line line s' hline, trimEndMatchesCR_append_newline]
    · have h' : '\n' ∉ line ++ [c] := by
        intro hx
        rcases List.mem_append.mp hx with hx | hx
        · exact hline hx
        · simp at hx
          exact hc hx.symm
      rw [show frameGo line (c :: s') = frameGo (line ++ [c]) s' by
          simp only [frameGo, if_neg hc]]
      rw [ih (line ++ [c]) h']
      rw [show line ++ [c] ++ s' = line ++ c :: s' by simp]

/-- C3 counterexample: for the single chunk `x\r` (no terminating
newline), the end-of-stream flush emits `x` — `trim_end_matches('\r')`
strips every trailing CR — so the reconstruction yields `x` while the
CRLF-normalized stream content is `x\r`; the round trip as claimed (modulo
`\r\n` → `\n` only) fails on a residual line that ends in a carriage
return. -/
theorem c3_counterexample :
    joinNL ((frameFeed [['x', '\r']] []).1 ++
        [trimEndMatchesCR (frameFeed [['x', '\r']] []).2]) ≠
      normalizeCRLF (List.flatten [['x', '\r']]) := by
  decide

/-- C3 amended: concatenating all emitted lines re-joined with `\n`, plus
the final flushed line, reconstructs the stream content modulo normalizing
each `\r\n` to `\n` AND dropping every trailing `\r` of the residual
content at stream end (the final flush applies `trim_end_matches('\r')`,
not a single optional CR strip); each complete framed line is still the
text preceding a `\n` with at most one trailing `\r` stripped, and at
stream end the remaining buffered content, even without a trailing
newline, is flushed as the one final line — and the framing is insensitive
to chunk boundaries. -/
theorem c3_framer_roundtrip (chunks : List Str) :
    joinNL ((frameFeed chunks []).1 ++ [trimEndMatchesCR (frameFeed chunks []).2]) =
      trimEndMatchesCR (normalizeCRLF chunks.flatten) ∧
    frameFeed chunks [] = frameLines chunks.flatten := by
  have hfeed : frameFeed chunks [] = frameGo [] chunks.flatten :=
    frameFeed_join chunks [] (by simp)
  refine ⟨?_, hfeed⟩
  rw [hfeed]
  have h := frame_reconstruction chunks.flatten [] (by simp)
  rw [List.nil_append] at h
  exact h

end Trove
